import Mathlib

/-!
Verification of the object-ability state scheduler of this repository
(`omnigibson/object_states/factory.py`) against its natural-language
specification.

The Python module is shallowly embedded:

* a Python state class is a `StateKind` (a class identity paired with its
  `__name__`); the concrete classes imported by `factory.py` are listed as
  concrete `StateKind` values, while `ROOM_STATES` (defined in a module that
  is not part of the sources at hand) stays a parameter;
* Python dicts keyed by strings become association lists in insertion
  order, `frozenset`s become (deduplicated) lists in some iteration order;
* `networkx.DiGraph` together with `networkx.algorithms.topological_sort`
  (the generator-with-`pop()` implementation of the networkx 2.x line used
  by this code base) is embedded as `DiGraph` / `topological_sort` below;
  a raised `NetworkXUnfeasible` becomes an `Except.error` carrying the
  library's fixed message;
* a raised `AssertionError`/`StopIteration` becomes `Except.error` /
  `Option.none` respectively.
-/

namespace OmniGibson

/-- One imported object-state class as `factory.py` sees it: a Python class
identity (`id`, distinguishing distinct classes that might share a name)
together with its `__name__`. -/
structure StateKind where
  id : Nat
  name : String
deriving DecidableEq, Repr

def AABB : StateKind := ⟨0, "AABB"⟩
def Burnt : StateKind := ⟨1, "Burnt"⟩
def CleaningTool : StateKind := ⟨2, "CleaningTool"⟩
def ContactBodies : StateKind := ⟨3, "ContactBodies"⟩
def Cooked : StateKind := ⟨4, "Cooked"⟩
def Dusty : StateKind := ⟨5, "Dusty"⟩
def Heated : StateKind := ⟨6, "Heated"⟩
def Attached : StateKind := ⟨7, "Attached"⟩
def Frozen : StateKind := ⟨8, "Frozen"⟩
def HeatSourceOrSink : StateKind := ⟨9, "HeatSourceOrSink"⟩
def HorizontalAdjacency : StateKind := ⟨10, "HorizontalAdjacency"⟩
def InFOVOfRobot : StateKind := ⟨11, "InFOVOfRobot"⟩
def InHandOfRobot : StateKind := ⟨12, "InHandOfRobot"⟩
def InReachOfRobot : StateKind := ⟨13, "InReachOfRobot"⟩
def InSameRoomAsRobot : StateKind := ⟨14, "InSameRoomAsRobot"⟩
def Inside : StateKind := ⟨15, "Inside"⟩
def InsideRoomTypes : StateKind := ⟨16, "InsideRoomTypes"⟩
def MaxTemperature : StateKind := ⟨17, "MaxTemperature"⟩
def NextTo : StateKind := ⟨18, "NextTo"⟩
def ObjectsInFOVOfRobot : StateKind := ⟨19, "ObjectsInFOVOfRobot"⟩
def OnFloor : StateKind := ⟨20, "OnFloor"⟩
def OnTop : StateKind := ⟨21, "OnTop"⟩
def Open : StateKind := ⟨22, "Open"⟩
def Pose : StateKind := ⟨23, "Pose"⟩
def Sliced : StateKind := ⟨24, "Sliced"⟩
def Slicer : StateKind := ⟨25, "Slicer"⟩
def Soaked : StateKind := ⟨26, "Soaked"⟩
def Stained : StateKind := ⟨27, "Stained"⟩
def Temperature : StateKind := ⟨28, "Temperature"⟩
def ToggledOn : StateKind := ⟨29, "ToggledOn"⟩
def Touching : StateKind := ⟨30, "Touching"⟩
def Under : StateKind := ⟨31, "Under"⟩
def VerticalAdjacency : StateKind := ⟨32, "VerticalAdjacency"⟩
def WaterSource : StateKind := ⟨33, "WaterSource"⟩
def WaterSink : StateKind := ⟨34, "WaterSink"⟩
def Filled : StateKind := ⟨35, "Filled"⟩

/-- The explicit class list inside the `frozenset(...)` literal of
`_ALL_STATES`, in source order. -/
def coreStates : List StateKind :=
  [AABB, Burnt, CleaningTool, ContactBodies, Cooked, Dusty, Heated, Attached,
   Frozen, HeatSourceOrSink, HorizontalAdjacency, InFOVOfRobot, InHandOfRobot,
   InReachOfRobot, InSameRoomAsRobot, Inside, InsideRoomTypes, MaxTemperature,
   NextTo, ObjectsInFOVOfRobot, OnFloor, OnTop, Open, Pose, Sliced, Slicer,
   Soaked, Stained, Temperature, ToggledOn, Touching, Under,
   VerticalAdjacency, WaterSource, WaterSink, Filled]

/-- The catalog `_ALL_STATES = frozenset([...] + ROOM_STATES)`.  The
`ROOM_STATES` list lives in a module outside the sources at hand, so it is a
parameter.  A `frozenset` holds each class once, in some fixed iteration
order; it is embedded as the deduplicated concatenation. -/
def ALL_STATES (room_states : List StateKind) : List StateKind :=
  (coreStates ++ room_states).dedup

/-- The dict literal `_ABILITY_TO_STATE_MAPPING`, key insertion order
preserved; the `"robot"` entry is `ROOM_STATES + [ObjectsInFOVOfRobot]`. -/
def ABILITY_TO_STATE_MAPPING (room_states : List StateKind) :
    List (String × List StateKind) :=
  [("attachable", [Attached]),
   ("burnable", [Burnt]),
   ("cleaningTool", [CleaningTool]),
   ("coldSource", [HeatSourceOrSink]),
   ("cookable", [Cooked]),
   ("dustyable", [Dusty]),
   ("freezable", [Frozen]),
   ("heatable", [Heated]),
   ("heatSource", [HeatSourceOrSink]),
   ("openable", [Open]),
   ("robot", room_states ++ [ObjectsInFOVOfRobot]),
   ("sliceable", [Sliced]),
   ("slicer", [Slicer]),
   ("soakable", [Soaked]),
   ("stainable", [Stained]),
   ("toggleable", [ToggledOn]),
   ("waterSource", [WaterSource]),
   ("waterSink", [WaterSink]),
   ("fillable", [Filled])]

/-- The `frozenset` literal `_DEFAULT_STATE_SET`. -/
def DEFAULT_STATE_SET : List StateKind :=
  [InFOVOfRobot, InHandOfRobot, InReachOfRobot, InSameRoomAsRobot, Inside,
   NextTo, OnFloor, OnTop, Touching, Under]

/-- The `frozenset` literal `_FIRE_STATE_SET`. -/
def FIRE_STATE_SET : List StateKind := [HeatSourceOrSink]

/-- The `frozenset` literal `_STEAM_STATE_SET`. -/
def STEAM_STATE_SET : List StateKind := [Heated]

/-- The `frozenset` literal `_TEXTURE_CHANGE_STATE_SET`. -/
def TEXTURE_CHANGE_STATE_SET : List StateKind :=
  [Burnt, Cooked, Frozen, Soaked, ToggledOn]

/-- The dict literal `_TEXTURE_CHANGE_PRIORITY`. -/
def TEXTURE_CHANGE_PRIORITY : List (StateKind × Nat) :=
  [(Frozen, 4), (Burnt, 3), (Cooked, 2), (Soaked, 1), (ToggledOn, 0)]

def get_fire_states : List StateKind := FIRE_STATE_SET

def get_steam_states : List StateKind := STEAM_STATE_SET

def get_texture_change_states : List StateKind := TEXTURE_CHANGE_STATE_SET

def get_texture_change_priority : List (StateKind × Nat) :=
  TEXTURE_CHANGE_PRIORITY

def get_default_states : List StateKind := DEFAULT_STATE_SET

/-- The function `get_fluid_source_states`, which filters `_ALL_STATES` by
`issubclass(state, FluidSource)`.  The class `FluidSource` is defined in a
module outside the sources at hand, so the subclass test is a parameter
`isFluidSource`. -/
def get_fluid_source_states (isFluidSource : StateKind → Bool)
    (room_states : List StateKind) : List StateKind :=
  (ALL_STATES room_states).filter isFluidSource

def get_all_states (room_states : List StateKind) : List StateKind :=
  ALL_STATES room_states

/-- The function `get_state_name`: the class `__name__`. -/
def get_state_name (state : StateKind) : String := state.name

/-- The function `get_state_from_name`:
`next(state for state in _ALL_STATES if get_state_name(state) == name)`.
A generator's `next` yields the first match and raises `StopIteration` when
nothing matches, embedded as `Option`. -/
def get_state_from_name (room_states : List StateKind) (name : String) :
    Option StateKind :=
  (ALL_STATES room_states).find? (fun state => decide (get_state_name state = name))

/-- The function `get_states_for_ability`: an unknown key returns `[]`,
otherwise the dict entry is returned. -/
def get_states_for_ability (room_states : List StateKind) (ability : String) :
    List StateKind :=
  match (ABILITY_TO_STATE_MAPPING room_states).lookup ability with
  | none => []
  | some states => states

/-- An argument acceptable to `get_object_state_instance`: some Python class
with its `__name__` and the result of `issubclass(·, BaseObjectState)` (the
class `BaseObjectState` itself lives outside the sources at hand, so the
subclass test is carried as a field). -/
structure PyStateClass where
  name : String
  isBaseObjectStateSubclass : Bool
deriving DecidableEq, Repr

/-- The value `state_class(obj, **params)`: an instance of the class,
holding the constructor arguments. -/
structure StateInstance (ω : Type) where
  cls : PyStateClass
  obj : ω
  params : List (String × String)
deriving DecidableEq, Repr

/-- The function `get_object_state_instance(state_class, obj, params=None)`.
A failing `assert` raises `AssertionError` with the formatted message,
embedded as `Except.error`. -/
def get_object_state_instance {ω : Type} (state_class : PyStateClass)
    (obj : ω) (params : Option (List (String × String))) :
    Except String (StateInstance ω) :=
  if !state_class.isBaseObjectStateSubclass then
    Except.error ("unknown state class: " ++ state_class.name)
  else
    Except.ok ⟨state_class, obj, params.getD []⟩

/-! ## The networkx fragment used by `factory.py`

`get_state_dependency_graph` builds `nx.DiGraph(dependencies)` from a dict
mapping each state to the list `state.get_dependencies() +
state.get_optional_dependencies()`; `get_states_by_dependency_order` returns
`list(reversed(list(nx.algorithms.topological_sort(graph))))`.

`nx.DiGraph(d)` on a dict of lists adds every key as a node (in dict order)
and then, for every key `k` and every `v` in `d[k]`, the edge `k → v`
(adding still-missing endpoint nodes as they appear); node and edge sets are
kept in insertion order without duplicates.

`topological_sort(G)` (networkx 2.x) materialises
`zero_indegree = [v for v, d in G.in_degree() if d == 0]`, then repeatedly
`pop()`s the last element `n`, decrements the recorded in-degree of every
successor of `n` (appending a successor whose count reaches zero), and
yields `n`; when nodes with a positive count remain at the end it raises
`NetworkXUnfeasible` with a fixed message.  The map from still-positive
in-degrees is embedded as a total function `α → Nat` (deletion of a key
coincides with its count reaching zero), and "the map is non-empty at the
end" is expressed by the equivalent "fewer nodes were emitted than the graph
has" length test. -/

/-- A `networkx.DiGraph`: nodes and edges in insertion order, no
duplicates. -/
structure DiGraph (α : Type) where
  nodes : List α
  edges : List (α × α)
deriving Repr

namespace DiGraph

variable {α : Type} [DecidableEq α]

def empty : DiGraph α := ⟨[], []⟩

def addNode (g : DiGraph α) (v : α) : DiGraph α :=
  if v ∈ g.nodes then g else ⟨g.nodes ++ [v], g.edges⟩

def addEdge (g : DiGraph α) (u v : α) : DiGraph α :=
  if (u, v) ∈ ((g.addNode u).addNode v).edges then (g.addNode u).addNode v
  else ⟨((g.addNode u).addNode v).nodes, ((g.addNode u).addNode v).edges ++ [(u, v)]⟩

/-- The `nx.DiGraph(dict_of_lists)` constructor: all keys become nodes
first, then every `k → v` edge is inserted. -/
def ofDict (d : List (α × List α)) : DiGraph α :=
  let g0 := d.foldl (fun g kv => g.addNode kv.1) empty
  d.foldl (fun g kv => kv.2.foldl (fun g2 v => g2.addEdge kv.1 v) g) g0

/-- Successors `G.edges(n)` of a node, in edge insertion order. -/
def succs (g : DiGraph α) (u : α) : List α :=
  (g.edges.filter (fun e => decide (e.1 = u))).map (fun e => e.2)

/-- The in-degree of a node. -/
def indeg (g : DiGraph α) (v : α) : Nat :=
  g.edges.countP (fun e => decide (e.2 = v))

/-- The edge relation of a graph. -/
def Rel (g : DiGraph α) (u v : α) : Prop := (u, v) ∈ g.edges

/-- A directed cycle exists: some node reaches itself through at least one
edge. -/
def HasCycle (g : DiGraph α) : Prop := ∃ v, Relation.TransGen g.Rel v v

end DiGraph

/-- One execution of the `indegree_map[child] -= 1` body: the recorded
in-degree of child `c` is decremented, and `c` is collected when the new
count is zero (as `zero_indegree.append(child)` does). -/
def kahnChildStep {α : Type} [DecidableEq α] (p : List α × (α → Nat))
    (c : α) : List α × (α → Nat) :=
  (if p.2 c - 1 = 0 then p.1 ++ [c] else p.1,
   fun v => if v = c then p.2 c - 1 else p.2 v)

/-- One visit of the `for _, child in G.edges(node)` body of networkx's
`topological_sort`: every successor's recorded in-degree is decremented and
the successors whose count reaches zero are collected (in visit order, as
`zero_indegree.append` does). -/
def kahnVisit {α : Type} [DecidableEq α] (g : DiGraph α) (m : α → Nat)
    (n : α) : List α × (α → Nat) :=
  (g.succs n).foldl kahnChildStep ([], m)

/-- The generator loop of networkx 2.x `topological_sort`.  The
`zero_indegree` list is kept reversed, so `zero_indegree.pop()` (take the
last element) is taking the head here, and appending freshly zeroed
successors `c₁, c₂, …` at the end is prepending their reversal.  One unit of
fuel per yielded node; `g.nodes.length` units are enough for any graph whose
node/edge lists are duplicate-free. -/
def kahnLoop {α : Type} [DecidableEq α] (g : DiGraph α) :
    Nat → List α → (α → Nat) → List α → List α
  | 0, _, _, acc => acc
  | _ + 1, [], _, acc => acc
  | fuel + 1, n :: stack, m, acc =>
    let p := kahnVisit g m n
    kahnLoop g fuel (p.1.reverse ++ stack) p.2 (acc ++ [n])

/-- The message of the `NetworkXUnfeasible` raised by `topological_sort`. -/
def nxUnfeasibleMsg : String :=
  "Graph contains a cycle or graph changed during iteration"

/-- The full run of the generator loop: the initial `zero_indegree` list is
`[v for v, d in G.in_degree() if d == 0]` (kept reversed, as `pop()` takes
the last element) and the initial recorded in-degrees are `G.in_degree()`
itself. -/
def kahnRun {α : Type} [DecidableEq α] (g : DiGraph α) : List α :=
  kahnLoop g g.nodes.length
    ((g.nodes.filter (fun v => decide (g.indeg v = 0))).reverse) g.indeg []

/-- The function `list(nx.algorithms.topological_sort(G))` of networkx 2.x:
either the full topological order, or the `NetworkXUnfeasible` error (all
nodes were yielded exactly when the `indegree_map` is empty at the end). -/
def topological_sort {α : Type} [DecidableEq α] (g : DiGraph α) :
    Except String (List α) :=
  if (kahnRun g).length = g.nodes.length then Except.ok (kahnRun g)
  else Except.error nxUnfeasibleMsg

/-! ## The dependency-graph pipeline of `factory.py`

The per-class methods `get_dependencies` / `get_optional_dependencies` are
defined on the state classes outside `factory.py`; a *registry* records, for
each state in catalog iteration order, those two lists.  The pipeline is
generic in the node type, as the claims quantify over registries. -/

/-- One catalog entry: a state together with its `get_dependencies()` and
`get_optional_dependencies()` results. -/
structure RegEntry (α : Type) where
  state : α
  required : List α
  optionalDeps : List α

/-- A registry: the catalog in iteration order with each state's declared
dependencies. -/
abbrev Registry (α : Type) := List (RegEntry α)

/-- The dict comprehension
`{state: state.get_dependencies() + state.get_optional_dependencies() for state in get_all_states()}`. -/
def dependency_dict {α : Type} (R : Registry α) : List (α × List α) :=
  R.map (fun e => (e.state, e.required ++ e.optionalDeps))

/-- The function `get_state_dependency_graph`. -/
def get_state_dependency_graph {α : Type} [DecidableEq α] (R : Registry α) :
    DiGraph α :=
  DiGraph.ofDict (dependency_dict R)

/-- The function `get_states_by_dependency_order`:
`list(reversed(list(nx.algorithms.topological_sort(get_state_dependency_graph()))))`. -/
def get_states_by_dependency_order {α : Type} [DecidableEq α]
    (R : Registry α) : Except String (List α) :=
  Except.map List.reverse (topological_sort (get_state_dependency_graph R))

/-- A three-entry chain registry (Cooked requires Temperature, Temperature
requires Pose), used as a concrete acyclic instance. -/
def regChain : Registry String :=
  [⟨"Cooked", ["Temperature"], []⟩, ⟨"Temperature", ["Pose"], []⟩,
   ⟨"Pose", [], []⟩]

/-- Two independent states whose catalog iteration order is anti-lexical. -/
def regBA : Registry String := [⟨"B", [], []⟩, ⟨"A", [], []⟩]

/-- A single required dependency, for inspecting the edge direction. -/
def regKD : Registry String := [⟨"K", ["D"], []⟩]

/-- Mutually-required states A and B. -/
def regABcycle : Registry String := [⟨"A", ["B"], []⟩, ⟨"B", ["A"], []⟩]

/-- Mutually-required states C and D. -/
def regCDcycle : Registry String := [⟨"C", ["D"], []⟩, ⟨"D", ["C"], []⟩]

/-! ## Texture-conflict resolution

The winning-state selection is performed by the renderer-facing caller of
`get_texture_change_priority`, whose code is not among the sources at hand;
it is modelled from the spec. -/

/-- Modelled from the spec: `texture_priority(kind) -> integer rank`, the
rank a state kind has in the texture-change priority table (the caller reads
the dict returned by `get_texture_change_priority`). -/
def texture_priority (s : StateKind) : Nat :=
  (get_texture_change_priority.lookup s).getD 0

/-- Modelled from the spec: one comparison step of the winner selection,
keeping whichever of the running winner and the next active state has the
higher rank. -/
def winning_step (acc : Option StateKind) (s : StateKind) : Option StateKind :=
  match acc with
  | none => some s
  | some w => if texture_priority w < texture_priority s then some s else some w

/-- Modelled from the spec: the winning state for visual presentation is
"the one with the numerically highest rank among those currently active on
that entity" — an argmax of `texture_priority` over the active set (the
selection code itself is not among the sources at hand). -/
def winning_texture_state (active : List StateKind) : Option StateKind :=
  active.foldl winning_step none

/-! ## Invariants for the topological-sort proof -/

/-- Structural facts holding for every graph `nx.DiGraph(...)` builds: node
and edge lists are duplicate-free and every edge endpoint is a node. -/
structure GraphWF {α : Type} (g : DiGraph α) : Prop where
  nodupNodes : g.nodes.Nodup
  nodupEdges : g.edges.Nodup
  fstMem : ∀ e ∈ g.edges, e.1 ∈ g.nodes
  sndMem : ∀ e ∈ g.edges, e.2 ∈ g.nodes

/-- The in-degree of `v` counting only edges whose source has not been
yielded yet (is outside `acc`): the count networkx's `indegree_map` records
for the keys it still holds. -/
def remIndeg {α : Type} [DecidableEq α] (g : DiGraph α) (acc : List α)
    (v : α) : Nat :=
  g.edges.countP (fun e => decide (e.2 = v) && decide (e.1 ∉ acc))

/-- The loop invariant of `kahnLoop`: `acc` is the list of yielded nodes,
`stack` the pending zero-in-degree nodes, `m` the recorded in-degrees. -/
structure KInv {α : Type} [DecidableEq α] (g : DiGraph α) (stack : List α)
    (m : α → Nat) (acc : List α) : Prop where
  nodup : (acc ++ stack).Nodup
  sub : ∀ x ∈ acc ++ stack, x ∈ g.nodes
  hm : ∀ v ∈ g.nodes, v ∉ acc → v ∉ stack → m v = remIndeg g acc v ∧ 1 ≤ m v
  hstack : ∀ v ∈ stack, ∀ u, (u, v) ∈ g.edges → u ∈ acc
  hacc : ∀ u v, (u, v) ∈ g.edges → v ∈ acc → [u, v].Sublist acc

/-! ## Catalog and table lemmas -/

/-- A `find?` over a list whose mapped names are duplicate-free returns the
unique element carrying a given name. -/
theorem find?_name_eq {l : List StateKind} (h : (l.map get_state_name).Nodup)
    {s : StateKind} (hs : s ∈ l) :
    l.find? (fun t => decide (get_state_name t = get_state_name s)) = some s := by
  induction l with
  | nil => cases hs
  | cons t l ih =>
    simp only [List.map_cons, List.nodup_cons] at h
    rcases List.mem_cons.mp hs with rfl | hs'
    · simp [List.find?_cons_of_pos]
    · have hne : get_state_name t ≠ get_state_name s := by
        intro he
        exact h.1 (he ▸ List.mem_map_of_mem get_state_name hs')
    -- the head test fails, so `find?` continues in the tail
      rw [List.find?_cons_of_neg _ (by simpa using hne)]
      exact ih h.2 hs'

/-- An association-list `lookup` misses every key that no pair carries. -/
theorem lookup_eq_none_of_forall {β : Type} {l : List (String × β)} {a : String}
    (h : ∀ p ∈ l, p.1 ≠ a) : l.lookup a = none := by
  induction l with
  | nil => rfl
  | cons p l ih =>
    obtain ⟨k, v⟩ := p
    have h1 : (a == k) = false :=
      beq_eq_false_iff_ne.mpr (fun he => h (k, v) (List.mem_cons_self _ _) he.symm)
    simp only [List.lookup, h1]
    exact ih (fun q hq => h q (List.mem_cons_of_mem _ hq))

/-- C9: the texture-change priority table and the texture-change state set
have exactly the same members, and the assigned integer ranks are pairwise
distinct, so the table is a strict total order on that set. -/
theorem C9_priority_domain :
    (∀ s ∈ get_texture_change_states,
        s ∈ get_texture_change_priority.map Prod.fst) ∧
    (∀ s ∈ get_texture_change_priority.map Prod.fst,
        s ∈ get_texture_change_states) ∧
    (get_texture_change_priority.map Prod.snd).Nodup := by
  decide

/-- C5 (counterexample): looking up the unregistered ability `"flies"`
returns the empty list — the call succeeds instead of failing with
`UnknownAbilityError`. -/
theorem C5_counterexample : get_states_for_ability [] "flies" = [] := by rfl

/-- C5 (amended): for every ability name not registered in the ability
table, `get_states_for_ability` returns the empty list (no error is
raised). -/
theorem C5_amended_unknown_ability (room_states : List StateKind)
    (ability : String)
    (h : ∀ p ∈ ABILITY_TO_STATE_MAPPING room_states, p.1 ≠ ability) :
    get_states_for_ability room_states ability = [] := by
  unfold get_states_for_ability
  rw [lookup_eq_none_of_forall h]

/-- C5 (witness): the amended statement at the concrete ability
`"flies"`. -/
theorem C5_amended_witness : get_states_for_ability [] "flies" = [] :=
  C5_amended_unknown_ability [] "flies" (by decide)

/-- C7: `get_fluid_source_states` returns exactly the members of the full
catalog satisfying the fluid-source marker — in particular a subset of
`get_all_states` — and, the embedding being a pure function of the frozen
catalog, repeated calls return the same collection. -/
theorem C7_fluid_source_states (isFluidSource : StateKind → Bool)
    (room_states : List StateKind) :
    (∀ s, s ∈ get_fluid_source_states isFluidSource room_states ↔
        s ∈ get_all_states room_states ∧ isFluidSource s = true) ∧
    (∀ s ∈ get_fluid_source_states isFluidSource room_states,
        s ∈ get_all_states room_states) ∧
    get_fluid_source_states isFluidSource room_states =
      get_fluid_source_states isFluidSource room_states := by
  refine ⟨fun s => ?_, fun s hs => ?_, rfl⟩
  · show s ∈ (ALL_STATES room_states).filter isFluidSource ↔
      s ∈ ALL_STATES room_states ∧ isFluidSource s = true
    exact List.mem_filter
  · have hs' : s ∈ (ALL_STATES room_states).filter isFluidSource := hs
    exact (List.mem_filter.mp hs').1

/-- C7 (witness): a concrete marker selecting `WaterSource` — its single
member is in the catalog, as the characterisation demands. -/
theorem C7_fluid_source_states_witness :
    WaterSource ∈ get_all_states [] :=
  (C7_fluid_source_states (fun s => decide (s = WaterSource)) []).2.1
    WaterSource (by decide)

/-- C8: a class failing the `issubclass(·, BaseObjectState)` check makes
`get_object_state_instance` fail (the failing `assert` raises, carrying the
"unknown state class" message), and a conforming class yields an instance
constructed from the object and the given parameters (an absent parameter
dict defaulting to empty). -/
theorem C8_factory_validation {ω : Type} (state_class : PyStateClass)
    (obj : ω) (params : Option (List (String × String))) :
    (state_class.isBaseObjectStateSubclass = false →
      get_object_state_instance state_class obj params =
        Except.error ("unknown state class: " ++ state_class.name)) ∧
    (state_class.isBaseObjectStateSubclass = true →
      get_object_state_instance state_class obj params =
        Except.ok ⟨state_class, obj, params.getD []⟩) := by
  constructor <;> intro h <;> simp [get_object_state_instance, h]

/-- C8 (witness): both branches of the factory validation at concrete
inputs. -/
theorem C8_factory_validation_witness :
    get_object_state_instance ⟨"NotAState", false⟩ (0 : Nat) none =
      Except.error "unknown state class: NotAState" ∧
    get_object_state_instance ⟨"Burnt", true⟩ (0 : Nat) (some [("p", "1")]) =
      Except.ok ⟨⟨"Burnt", true⟩, 0, [("p", "1")]⟩ :=
  ⟨(C8_factory_validation ⟨"NotAState", false⟩ (0 : Nat) none).1 rfl,
   (C8_factory_validation ⟨"Burnt", true⟩ (0 : Nat) (some [("p", "1")])).2 rfl⟩

/-- C10: when the catalog's names are duplicate-free, name lookup
round-trips with naming — `get_state_from_name` after `get_state_name`
returns the very state — and a name carried by no registered kind yields no
state (the generator in the source raises `StopIteration`). -/
theorem C10_name_roundtrip (room_states : List StateKind)
    (h : ((get_all_states room_states).map get_state_name).Nodup) :
    (∀ s ∈ get_all_states room_states,
        get_state_from_name room_states (get_state_name s) = some s) ∧
    (∀ n, (∀ s ∈ get_all_states room_states, get_state_name s ≠ n) →
        get_state_from_name room_states n = none) := by
  constructor
  · intro s hs
    exact find?_name_eq h hs
  · intro n hn
    apply List.find?_eq_none.mpr
    intro s hs
    simpa using hn s hs

/-- C10 (witness): the empty `ROOM_STATES` catalog has duplicate-free names;
`Burnt` round-trips and the foreign name `"Flies"` yields no state. -/
theorem C10_name_roundtrip_witness :
    get_state_from_name [] (get_state_name Burnt) = some Burnt ∧
    get_state_from_name [] "Flies" = none :=
  ⟨(C10_name_roundtrip [] (by decide)).1 Burnt (by decide),
   (C10_name_roundtrip [] (by decide)).2 "Flies" (by decide)⟩

/-- The fold of `winning_texture_state`, started from a running winner `w`,
returns an element of `w :: l` whose priority dominates both `w` and every
element of `l`. -/
theorem winning_fold_spec (l : List StateKind) :
    ∀ w : StateKind, ∃ w', l.foldl winning_step (some w) = some w' ∧
      (w' = w ∨ w' ∈ l) ∧ texture_priority w ≤ texture_priority w' ∧
      ∀ s ∈ l, texture_priority s ≤ texture_priority w' := by
  induction l with
  | nil => exact fun w => ⟨w, rfl, Or.inl rfl, le_refl _, by simp⟩
  | cons s l ih =>
    intro w
    by_cases hlt : texture_priority w < texture_priority s
    · obtain ⟨w', h1, h2, h3, h4⟩ := ih s
      refine ⟨w', ?_, ?_, ?_, ?_⟩
      · simpa [winning_step, hlt] using h1
      · rcases h2 with rfl | h2
        · exact Or.inr (List.mem_cons_self _ _)
        · exact Or.inr (List.mem_cons_of_mem _ h2)
      · exact le_trans (le_of_lt hlt) h3
      · intro t ht
        rcases List.mem_cons.mp ht with rfl | ht'
        · exact h3
        · exact h4 t ht'
    · obtain ⟨w', h1, h2, h3, h4⟩ := ih w
      refine ⟨w', ?_, ?_, h3, ?_⟩
      · simpa [winning_step, hlt] using h1
      · rcases h2 with rfl | h2
        · exact Or.inl rfl
        · exact Or.inr (List.mem_cons_of_mem _ h2)
      · intro t ht
        rcases List.mem_cons.mp ht with rfl | ht'
        · exact le_trans (le_of_not_lt hlt) h3
        · exact h4 t ht'

/-- C6: the texture-change priority table assigns exactly the ranks
Frozen 4, Burnt 3, Cooked 2, Soaked 1, ToggledOn 0; for every non-empty set
of active texture-affecting states the resolved winner is the unique member
of highest rank; in particular Burnt wins over Soaked, and Cooked wins over
Soaked and ToggledOn. -/
theorem C6_texture_priority_resolution :
    (texture_priority Frozen = 4 ∧ texture_priority Burnt = 3 ∧
     texture_priority Cooked = 2 ∧ texture_priority Soaked = 1 ∧
     texture_priority ToggledOn = 0) ∧
    (∀ S : List StateKind, S ≠ [] → S ⊆ get_texture_change_states →
      ∃ w, winning_texture_state S = some w ∧ w ∈ S ∧
        ∀ s ∈ S, s ≠ w → texture_priority s < texture_priority w) ∧
    winning_texture_state [Burnt, Soaked] = some Burnt ∧
    winning_texture_state [Cooked, Soaked, ToggledOn] = some Cooked := by
  refine ⟨by decide, ?_, by decide, by decide⟩
  intro S hne hsub
  have hinj : ∀ a ∈ get_texture_change_states, ∀ b ∈ get_texture_change_states,
      texture_priority a = texture_priority b → a = b := by decide
  match S, hne with
  | s₀ :: rest, _ =>
    obtain ⟨w, h1, h2, h3, h4⟩ := winning_fold_spec rest s₀
    have hw : winning_texture_state (s₀ :: rest) = some w := by
      simpa [winning_texture_state, winning_step] using h1
    have hwmem : w ∈ s₀ :: rest := by
      rcases h2 with rfl | h2
      · exact List.mem_cons_self _ _
      · exact List.mem_cons_of_mem _ h2
    refine ⟨w, hw, hwmem, ?_⟩
    intro s hs hsne
    have hle : texture_priority s ≤ texture_priority w := by
      rcases List.mem_cons.mp hs with rfl | hs'
      · exact h3
      · exact h4 s hs'
    rcases lt_or_eq_of_le hle with hlt | heq
    · exact hlt
    · exact absurd (hinj s (hsub hs) w (hsub hwmem) heq) hsne

/-- C6 (witness): the general winner characterisation at the concrete
active set containing Burnt and Soaked. -/
theorem C6_texture_priority_witness :
    ∃ w, winning_texture_state [Burnt, Soaked] = some w ∧
      w ∈ [Burnt, Soaked] ∧
      ∀ s ∈ [Burnt, Soaked], s ≠ w →
        texture_priority s < texture_priority w :=
  C6_texture_priority_resolution.2.1 [Burnt, Soaked] (by decide) (by decide)

/-! ## Graph-construction lemmas -/

namespace DiGraph

variable {α : Type} [DecidableEq α]

theorem addNode_edges (g : DiGraph α) (v : α) : (g.addNode v).edges = g.edges := by
  unfold addNode
  split <;> rfl

theorem mem_addNode_nodes {g : DiGraph α} {v w : α} :
    w ∈ (g.addNode v).nodes ↔ w ∈ g.nodes ∨ w = v := by
  unfold addNode
  split
  · next h => exact ⟨Or.inl, fun h' => h'.elim id fun he => he ▸ h⟩
  · simp [List.mem_append]

theorem addNode_nodes_nodup {g : DiGraph α} (h : g.nodes.Nodup) (v : α) :
    (g.addNode v).nodes.Nodup := by
  unfold addNode
  split
  · exact h
  · next hv => simp [List.nodup_append, h, hv]

theorem addNode_wf {g : DiGraph α} (h : GraphWF g) (v : α) : GraphWF (g.addNode v) where
  nodupNodes := addNode_nodes_nodup h.nodupNodes v
  nodupEdges := by rw [addNode_edges]; exact h.nodupEdges
  fstMem := by
    rw [addNode_edges]
    exact fun e he => mem_addNode_nodes.mpr (Or.inl (h.fstMem e he))
  sndMem := by
    rw [addNode_edges]
    exact fun e he => mem_addNode_nodes.mpr (Or.inl (h.sndMem e he))

theorem addEdge_nodes (g : DiGraph α) (u v : α) :
    (g.addEdge u v).nodes = ((g.addNode u).addNode v).nodes := by
  by_cases h : (u, v) ∈ g.edges <;> simp [addEdge, addNode_edges, h]

theorem addEdge_edges (g : DiGraph α) (u v : α) :
    (g.addEdge u v).edges =
      if (u, v) ∈ g.edges then g.edges else g.edges ++ [(u, v)] := by
  by_cases h : (u, v) ∈ g.edges <;> simp [addEdge, addNode_edges, h]

theorem mem_addEdge_edges {g : DiGraph α} {u v : α} {e : α × α} :
    e ∈ (g.addEdge u v).edges ↔ e ∈ g.edges ∨ e = (u, v) := by
  rw [addEdge_edges]
  split
  · next h => exact ⟨Or.inl, fun h' => h'.elim id fun he => he ▸ h⟩
  · simp [List.mem_append]

theorem mem_addEdge_nodes {g : DiGraph α} {u v w : α} :
    w ∈ (g.addEdge u v).nodes ↔ w ∈ g.nodes ∨ w = u ∨ w = v := by
  rw [addEdge_nodes]
  simp [mem_addNode_nodes, or_assoc]

theorem addEdge_wf {g : DiGraph α} (h : GraphWF g) (u v : α) :
    GraphWF (g.addEdge u v) where
  nodupNodes := by
    rw [addEdge_nodes]
    exact addNode_nodes_nodup (addNode_nodes_nodup h.nodupNodes u) v
  nodupEdges := by
    rw [addEdge_edges]
    split
    · exact h.nodupEdges
    · next hne => simp [List.nodup_append, h.nodupEdges, hne]
  fstMem := fun e he => by
    rcases mem_addEdge_edges.mp he with h' | rfl
    · exact mem_addEdge_nodes.mpr (Or.inl (h.fstMem e h'))
    · exact mem_addEdge_nodes.mpr (Or.inr (Or.inl rfl))
  sndMem := fun e he => by
    rcases mem_addEdge_edges.mp he with h' | rfl
    · exact mem_addEdge_nodes.mpr (Or.inl (h.sndMem e h'))
    · exact mem_addEdge_nodes.mpr (Or.inr (Or.inr rfl))

omit [DecidableEq α] in
theorem empty_wf : GraphWF (empty : DiGraph α) where
  nodupNodes := List.nodup_nil
  nodupEdges := List.nodup_nil
  fstMem := by intro e he; cases he
  sndMem := by intro e he; cases he

/-- Edges accumulated by inserting all edges `u → d`, `d ∈ ds`. -/
theorem mem_foldl_addEdge_edges (u : α) :
    ∀ (ds : List α) (g : DiGraph α) (e : α × α),
      e ∈ (ds.foldl (fun g2 v => g2.addEdge u v) g).edges ↔
        e ∈ g.edges ∨ (e.1 = u ∧ e.2 ∈ ds) := by
  intro ds
  induction ds with
  | nil => simp
  | cons d ds ih =>
    intro g e
    rw [List.foldl_cons, ih, mem_addEdge_edges]
    simp only [List.mem_cons, Prod.ext_iff]
    constructor
    · rintro ((h | ⟨h1, h2⟩) | ⟨h1, h2⟩)
      · exact Or.inl h
      · exact Or.inr ⟨h1, Or.inl h2⟩
      · exact Or.inr ⟨h1, Or.inr h2⟩
    · rintro (h | ⟨h1, h2 | h2⟩)
      · exact Or.inl (Or.inl h)
      · exact Or.inl (Or.inr ⟨h1, h2⟩)
      · exact Or.inr ⟨h1, h2⟩

theorem mem_foldl_addEdge_nodes (u : α) :
    ∀ (ds : List α) (g : DiGraph α) (w : α),
      w ∈ (ds.foldl (fun g2 v => g2.addEdge u v) g).nodes ↔
        w ∈ g.nodes ∨ (w = u ∧ ds ≠ []) ∨ w ∈ ds := by
  intro ds
  induction ds with
  | nil => simp
  | cons d ds ih =>
    intro g w
    rw [List.foldl_cons, ih, mem_addEdge_nodes]
    simp only [List.mem_cons]
    constructor
    · rintro ((h | rfl | rfl) | ⟨rfl, _⟩ | h)
      · exact Or.inl h
      · exact Or.inr (Or.inl ⟨rfl, List.cons_ne_nil _ _⟩)
      · exact Or.inr (Or.inr (Or.inl rfl))
      · exact Or.inr (Or.inl ⟨rfl, List.cons_ne_nil _ _⟩)
      · exact Or.inr (Or.inr (Or.inr h))
    · rintro (h | ⟨rfl, _⟩ | rfl | h)
      · exact Or.inl (Or.inl h)
      · exact Or.inl (Or.inr (Or.inl rfl))
      · exact Or.inl (Or.inr (Or.inr rfl))
      · exact Or.inr (Or.inr h)

theorem foldl_addEdge_wf (u : α) :
    ∀ (ds : List α) (g : DiGraph α), GraphWF g →
      GraphWF (ds.foldl (fun g2 v => g2.addEdge u v) g) := by
  intro ds
  induction ds with
  | nil => exact fun g h => h
  | cons d ds ih => exact fun g h => ih _ (addEdge_wf h u d)

theorem foldl_addNode_edges :
    ∀ (d : List (α × List α)) (g : DiGraph α),
      (d.foldl (fun g kv => g.addNode kv.1) g).edges = g.edges := by
  intro d
  induction d with
  | nil => exact fun g => rfl
  | cons kv d ih => exact fun g => (ih _).trans (addNode_edges g kv.1)

theorem mem_foldl_dict_edges :
    ∀ (d : List (α × List α)) (g : DiGraph α) (e : α × α),
      e ∈ (d.foldl
          (fun g kv => kv.2.foldl (fun g2 v => g2.addEdge kv.1 v) g) g).edges ↔
        e ∈ g.edges ∨ ∃ kv ∈ d, e.1 = kv.1 ∧ e.2 ∈ kv.2 := by
  intro d
  induction d with
  | nil => simp
  | cons kv d ih =>
    intro g e
    rw [List.foldl_cons, ih, mem_foldl_addEdge_edges]
    simp only [List.mem_cons]
    constructor
    · rintro ((h | ⟨h1, h2⟩) | ⟨kv', h1, h2⟩)
      · exact Or.inl h
      · exact Or.inr ⟨kv, Or.inl rfl, h1, h2⟩
      · exact Or.inr ⟨kv', Or.inr h1, h2⟩
    · rintro (h | ⟨kv', h1 | h1, h2⟩)
      · exact Or.inl (Or.inl h)
      · exact Or.inl (Or.inr (h1 ▸ h2))
      · exact Or.inr ⟨kv', h1, h2⟩

/-- Edges of `ofDict`: exactly one `k → v` edge for every key `k` and every
`v` in `d[k]`. -/
theorem mem_ofDict_edges {d : List (α × List α)} {e : α × α} :
    e ∈ (ofDict d).edges ↔ ∃ kv ∈ d, e.1 = kv.1 ∧ e.2 ∈ kv.2 := by
  unfold ofDict
  rw [mem_foldl_dict_edges, foldl_addNode_edges]
  simp [empty]

theorem foldl_addNode_wf :
    ∀ (d : List (α × List α)) (g : DiGraph α), GraphWF g →
      GraphWF (d.foldl (fun g kv => g.addNode kv.1) g) := by
  intro d
  induction d with
  | nil => exact fun g h => h
  | cons kv d ih => exact fun g h => ih _ (addNode_wf h kv.1)

theorem foldl_dict_wf :
    ∀ (d : List (α × List α)) (g : DiGraph α), GraphWF g →
      GraphWF (d.foldl
        (fun g kv => kv.2.foldl (fun g2 v => g2.addEdge kv.1 v) g) g) := by
  intro d
  induction d with
  | nil => exact fun g h => h
  | cons kv d ih => exact fun g h => ih _ (foldl_addEdge_wf kv.1 kv.2 g h)

/-- Every graph built by the `nx.DiGraph(dict)` constructor is
well-formed. -/
theorem ofDict_wf (d : List (α × List α)) : GraphWF (ofDict d) :=
  foldl_dict_wf d _ (foldl_addNode_wf d empty empty_wf)

/-- Membership in the successor list is edge membership. -/
theorem mem_succs {g : DiGraph α} {u c : α} :
    c ∈ g.succs u ↔ (u, c) ∈ g.edges := by
  unfold succs
  simp only [List.mem_map, List.mem_filter, decide_eq_true_eq]
  constructor
  · rintro ⟨e, ⟨he, h1⟩, rfl⟩
    rw [← h1]
    exact he
  · intro h
    exact ⟨(u, c), ⟨h, rfl⟩, rfl⟩

/-- Successor lists of a well-formed graph are duplicate-free. -/
theorem succs_nodup {g : DiGraph α} (h : GraphWF g) (u : α) :
    (g.succs u).Nodup := by
  unfold succs
  apply List.Nodup.map_on
  · intro x hx y hy hxy
    have hx1 : x.1 = u := by simpa using (List.mem_filter.mp hx).2
    have hy1 : y.1 = u := by simpa using (List.mem_filter.mp hy).2
    obtain ⟨x1, x2⟩ := x
    obtain ⟨y1, y2⟩ := y
    cases hx1
    cases hy1
    cases hxy
    rfl
  · exact h.nodupEdges.filter _

end DiGraph

/-! ## Characterisation of one node visit -/

section KahnLemmas

variable {α : Type} [DecidableEq α]

/-- Folding `kahnChildStep` over a duplicate-free child list decrements each
child's count once and collects, in order, the children whose count reached
zero. -/
theorem kahnChildStep_foldl :
    ∀ (cs : List α), cs.Nodup → ∀ (z : List α) (m : α → Nat),
      cs.foldl kahnChildStep (z, m) =
        (z ++ cs.filter (fun c => decide (m c - 1 = 0)),
         fun v => if v ∈ cs then m v - 1 else m v) := by
  intro cs
  induction cs with
  | nil =>
    intro _ z m
    refine Prod.ext ?_ ?_
    · simp
    · funext v
      simp
  | cons c cs ih =>
    intro hnd z m
    have hc : c ∉ cs := (List.nodup_cons.mp hnd).1
    rw [List.foldl_cons, ih (List.nodup_cons.mp hnd).2]
    have hfilter :
        cs.filter (fun c' => decide ((if c' = c then m c - 1 else m c') - 1 = 0)) =
          cs.filter (fun c' => decide (m c' - 1 = 0)) := by
      apply List.filter_congr
      intro x hx
      have hxc : x ≠ c := fun h => hc (h ▸ hx)
      simp [hxc]
    simp only [kahnChildStep]
    refine Prod.ext ?_ ?_
    · rw [hfilter]
      by_cases hmc : m c - 1 = 0 <;>
        simp [hmc, List.filter_cons, List.append_assoc]
    · funext v
      by_cases hv : v = c
      · subst hv
        simp [hc]
      · by_cases hv2 : v ∈ cs <;> simp [hv, hv2, List.mem_cons]

/-- The full characterisation of `kahnVisit` on a well-formed graph. -/
theorem kahnVisit_eq {g : DiGraph α} (h : GraphWF g) (m : α → Nat) (n : α) :
    kahnVisit g m n =
      ((g.succs n).filter (fun c => decide (m c - 1 = 0)),
       fun v => if v ∈ g.succs n then m v - 1 else m v) := by
  unfold kahnVisit
  rw [kahnChildStep_foldl _ (DiGraph.succs_nodup h n)]
  simp

/-! ## Counting lemmas for the recorded in-degrees -/

/-- Appending a node that is the source of a recorded edge into `v` lowers
`v`'s remaining count by exactly one. -/
theorem countP_snoc_acc_mem {n v : α} {acc : List α} :
    ∀ l : List (α × α), l.Nodup → (n, v) ∈ l → n ∉ acc →
      l.countP (fun e => decide (e.2 = v) && decide (e.1 ∉ acc ++ [n])) + 1 =
        l.countP (fun e => decide (e.2 = v) && decide (e.1 ∉ acc)) := by
  intro l
  induction l with
  | nil => intro _ h; cases h
  | cons e t ih =>
    intro hnd he hn
    rw [List.countP_cons, List.countP_cons]
    by_cases hev : e = (n, v)
    · subst hev
      have ht : (n, v) ∉ t := (List.nodup_cons.mp hnd).1
      have hteq :
          t.countP (fun e => decide (e.2 = v) && decide (e.1 ∉ acc ++ [n])) =
            t.countP (fun e => decide (e.2 = v) && decide (e.1 ∉ acc)) := by
        apply List.countP_congr
        intro e hme
        have hene : e ≠ (n, v) := fun h => ht (h ▸ hme)
        by_cases h2 : e.2 = v
        · have h1 : e.1 ≠ n := by
            intro h1
            exact hene (by rw [← h1, ← h2])
          simp [h2, List.mem_append, h1]
        · simp [h2]
      rw [hteq]
      simp [hn]
    · have he' : (n, v) ∈ t := by
        rcases List.mem_cons.mp he with h | h
        · exact absurd h.symm hev
        · exact h
      have hpe :
          (decide (e.2 = v) && decide (e.1 ∉ acc ++ [n])) =
            (decide (e.2 = v) && decide (e.1 ∉ acc)) := by
        by_cases h2 : e.2 = v
        · have h1 : e.1 ≠ n := by
            intro h1
            exact hev (by rw [← h1, ← h2])
          simp [h2, List.mem_append, h1]
        · simp [h2]
      rw [hpe]
      have := ih (List.nodup_cons.mp hnd).2 he' hn
      omega

/-- Appending a node that is not the source of any recorded edge into `v`
leaves `v`'s remaining count unchanged. -/
theorem countP_snoc_acc_not_mem {n v : α} {acc : List α} :
    ∀ l : List (α × α), (n, v) ∉ l →
      l.countP (fun e => decide (e.2 = v) && decide (e.1 ∉ acc ++ [n])) =
        l.countP (fun e => decide (e.2 = v) && decide (e.1 ∉ acc)) := by
  intro l hl
  apply List.countP_congr
  intro e hme
  have hene : e ≠ (n, v) := fun h => hl (h ▸ hme)
  by_cases h2 : e.2 = v
  · have h1 : e.1 ≠ n := by
      intro h1
      exact hene (by rw [← h1, ← h2])
    simp [h2, List.mem_append, h1]
  · simp [h2]

/-- With nothing yielded yet, the remaining count is the plain in-degree. -/
theorem remIndeg_nil (g : DiGraph α) (v : α) : remIndeg g [] v = g.indeg v := by
  unfold remIndeg DiGraph.indeg
  apply List.countP_congr
  intro e _
  simp

/-- The remaining count of `v` after yielding `n` with an edge `n → v`. -/
theorem remIndeg_snoc_edge {g : DiGraph α} (hnd : g.edges.Nodup)
    {acc : List α} {n v : α} (hn : n ∉ acc) (he : (n, v) ∈ g.edges) :
    remIndeg g (acc ++ [n]) v + 1 = remIndeg g acc v :=
  countP_snoc_acc_mem g.edges hnd he hn

/-- The remaining count of `v` after yielding `n` without an edge `n → v`. -/
theorem remIndeg_snoc_not_edge (g : DiGraph α)
    {acc : List α} {n v : α} (he : (n, v) ∉ g.edges) :
    remIndeg g (acc ++ [n]) v = remIndeg g acc v :=
  countP_snoc_acc_not_mem g.edges he

/-- A positive remaining count yields an edge from an unyielded source. -/
theorem exists_edge_of_remIndeg_pos {g : DiGraph α} {acc : List α} {v : α}
    (h : 0 < remIndeg g acc v) :
    ∃ u, (u, v) ∈ g.edges ∧ u ∉ acc := by
  obtain ⟨e, hme, hpe⟩ := List.countP_pos_iff.mp h
  rcases Bool.and_eq_true_iff.mp hpe with ⟨h2, h1⟩
  have h2' : e.2 = v := of_decide_eq_true h2
  have h1' : e.1 ∉ acc := of_decide_eq_true h1
  exact ⟨e.1, by rw [← h2']; exact hme, h1'⟩

/-- An edge from an unyielded source witnesses a positive remaining
count. -/
theorem remIndeg_pos_of_edge {g : DiGraph α} {acc : List α} {u v : α}
    (he : (u, v) ∈ g.edges) (hu : u ∉ acc) : 0 < remIndeg g acc v := by
  apply List.countP_pos_iff.mpr
  exact ⟨(u, v), he, by simp [hu]⟩

/-! ## Preservation of the loop invariant -/

/-- Visiting the popped node `n` preserves the loop invariant. -/
theorem KInv_step {g : DiGraph α} (hwf : GraphWF g)
    {n : α} {stack : List α} {m : α → Nat} {acc : List α}
    (h : KInv g (n :: stack) m acc) :
    KInv g ((kahnVisit g m n).1.reverse ++ stack) (kahnVisit g m n).2
      (acc ++ [n]) := by
  rw [kahnVisit_eq hwf]
  obtain ⟨hnd, hsub, hm, hstack, hacc⟩ := h
  obtain ⟨hndacc, hndns, hdisj⟩ := List.nodup_append.mp hnd
  have hnacc : n ∉ acc := fun hn => hdisj hn (List.mem_cons_self _ _)
  have hnstack : n ∉ stack := (List.nodup_cons.mp hndns).1
  have hndstack : stack.Nodup := (List.nodup_cons.mp hndns).2
  have hdisjacc : ∀ x ∈ acc, x ∉ stack := fun x hx hxs =>
    hdisj hx (List.mem_cons_of_mem _ hxs)
  set z := (g.succs n).filter (fun c => decide (m c - 1 = 0)) with hzdef
  have hzsub : ∀ c ∈ z, (n, c) ∈ g.edges := fun c hc =>
    DiGraph.mem_succs.mp (List.mem_of_mem_filter hc)
  have hzfresh : ∀ c ∈ z, c ∉ acc ∧ c ≠ n ∧ c ∉ stack := by
    intro c hc
    have hec : (n, c) ∈ g.edges := hzsub c hc
    refine ⟨?_, ?_, ?_⟩
    · intro hcacc
      exact hnacc ((hacc n c hec hcacc).subset (List.mem_cons_self n [c]))
    · rintro rfl
      exact hnacc (hstack c (List.mem_cons_self _ _) c hec)
    · intro hcs
      exact hnacc (hstack c (List.mem_cons_of_mem _ hcs) n hec)
  have hzcount : ∀ c ∈ z, m c = 1 ∧ remIndeg g acc c = 1 := by
    intro c hc
    obtain ⟨hca, hcn, hcs⟩ := hzfresh c hc
    have hcnodes : c ∈ g.nodes := hwf.sndMem _ (hzsub c hc)
    have hmc := hm c hcnodes hca (by simp [List.mem_cons, hcn, hcs])
    have hc0 : m c - 1 = 0 := by simpa using (List.mem_filter.mp hc).2
    have hc1 : m c = 1 := by omega
    exact ⟨hc1, by rw [← hmc.1]; exact hc1⟩
  have hznodup : z.Nodup := (DiGraph.succs_nodup hwf n).filter _
  refine ⟨?_, ?_, ?_, ?_, ?_⟩
  · -- duplicate-freeness of the whole new state
    rw [List.nodup_append]
    refine ⟨?_, ?_, ?_⟩
    · rw [List.nodup_append]
      exact ⟨hndacc, List.nodup_singleton n,
        fun x hx hxn => hnacc ((List.mem_singleton.mp hxn) ▸ hx)⟩
    · rw [List.nodup_append]
      refine ⟨List.nodup_reverse.mpr hznodup, hndstack, ?_⟩
      intro x hx hxs
      exact (hzfresh x (List.mem_reverse.mp hx)).2.2 hxs
    · intro x hx hx2
      rcases List.mem_append.mp hx with hxa | hxn
      · rcases List.mem_append.mp hx2 with hxz | hxs
        · exact (hzfresh x (List.mem_reverse.mp hxz)).1 hxa
        · exact hdisjacc x hxa hxs
      · have hxn' : x = n := List.mem_singleton.mp hxn
        subst hxn'
        rcases List.mem_append.mp hx2 with hxz | hxs
        · exact (hzfresh x (List.mem_reverse.mp hxz)).2.1 rfl
        · exact hnstack hxs
  · -- all nodes of the state are graph nodes
    intro x hx
    rcases List.mem_append.mp hx with hx1 | hx2
    · rcases List.mem_append.mp hx1 with hxa | hxn
      · exact hsub x (List.mem_append.mpr (Or.inl hxa))
      · have hxn' : x = n := List.mem_singleton.mp hxn
        subst hxn'
        exact hsub x (List.mem_append.mpr (Or.inr (List.mem_cons_self _ _)))
    · rcases List.mem_append.mp hx2 with hxz | hxs
      · exact hwf.sndMem _ (hzsub x (List.mem_reverse.mp hxz))
      · exact hsub x (List.mem_append.mpr (Or.inr (List.mem_cons_of_mem _ hxs)))
  · -- recorded counts of still-undiscovered nodes
    intro v hv hva hvs
    have hva' : v ∉ acc := fun h' => hva (List.mem_append.mpr (Or.inl h'))
    have hvn : v ≠ n := fun h' =>
      hva (List.mem_append.mpr (Or.inr (by simp [h'])))
    have hvz : v ∉ z := fun h' =>
      hvs (List.mem_append.mpr (Or.inl (List.mem_reverse.mpr h')))
    have hvst : v ∉ stack := fun h' => hvs (List.mem_append.mpr (Or.inr h'))
    have hold := hm v hv hva' (by simp [List.mem_cons, hvn, hvst])
    by_cases hsucc : v ∈ g.succs n
    · have hedge : (n, v) ∈ g.edges := DiGraph.mem_succs.mp hsucc
      have hrem := remIndeg_snoc_edge hwf.nodupEdges hnacc hedge
      have hnz : ¬ (m v - 1 = 0) := by
        intro h0
        exact hvz (List.mem_filter.mpr ⟨hsucc, by simp [h0]⟩)
      constructor
      · show (if v ∈ g.succs n then m v - 1 else m v) = remIndeg g (acc ++ [n]) v
        rw [if_pos hsucc]
        omega
      · show 1 ≤ if v ∈ g.succs n then m v - 1 else m v
        rw [if_pos hsucc]
        omega
    · have hnedge : (n, v) ∉ g.edges := fun h' => hsucc (DiGraph.mem_succs.mpr h')
      have hrem : remIndeg g (acc ++ [n]) v = remIndeg g acc v :=
        remIndeg_snoc_not_edge g hnedge
      constructor
      · show (if v ∈ g.succs n then m v - 1 else m v) = remIndeg g (acc ++ [n]) v
        rw [if_neg hsucc, hrem]
        exact hold.1
      · show 1 ≤ if v ∈ g.succs n then m v - 1 else m v
        rw [if_neg hsucc]
        exact hold.2
  · -- every pending node has all in-edges from yielded nodes
    intro v hv u hedge
    rcases List.mem_append.mp hv with hvz | hvs
    · have hvz' : v ∈ z := List.mem_reverse.mp hvz
      have h1 : remIndeg g acc v = 1 := (hzcount v hvz').2
      have hnve : (n, v) ∈ g.edges := hzsub v hvz'
      have h0 : remIndeg g (acc ++ [n]) v = 0 := by
        have := remIndeg_snoc_edge hwf.nodupEdges hnacc hnve
        omega
      by_contra hu
      have := remIndeg_pos_of_edge hedge hu
      omega
    · exact List.mem_append.mpr
        (Or.inl (hstack v (List.mem_cons_of_mem _ hvs) u hedge))
  · -- yielded nodes respect the edges, as sublists
    intro u v hedge hv
    rcases List.mem_append.mp hv with hva | hvn
    · exact (hacc u v hedge hva).trans (List.sublist_append_left _ _)
    · have hvn' : v = n := List.mem_singleton.mp hvn
      subst hvn'
      have hu : u ∈ acc := hstack v (List.mem_cons_self _ _) u hedge
      have hsl : ([u] ++ [v]).Sublist (acc ++ [v]) :=
        List.Sublist.append (List.singleton_sublist.mpr hu) (List.Sublist.refl [v])
      simpa using hsl

/-- The invariant holds for the initial state of the generator. -/
theorem KInv_init {g : DiGraph α} (hwf : GraphWF g) :
    KInv g ((g.nodes.filter (fun v => decide (g.indeg v = 0))).reverse)
      g.indeg [] := by
  refine ⟨?_, ?_, ?_, ?_, ?_⟩
  · simpa using List.nodup_reverse.mpr (hwf.nodupNodes.filter _)
  · intro x hx
    rw [List.nil_append] at hx
    exact List.mem_of_mem_filter (List.mem_reverse.mp hx)
  · intro v hv _ hvs
    have hvne : ¬ g.indeg v = 0 := by
      intro h0
      exact hvs (List.mem_reverse.mpr (List.mem_filter.mpr ⟨hv, by simp [h0]⟩))
    exact ⟨(remIndeg_nil g v).symm, by omega⟩
  · intro v hv u hedge
    have h0 : g.indeg v = 0 := by
      simpa using (List.mem_filter.mp (List.mem_reverse.mp hv)).2
    have : 0 < remIndeg g [] v := remIndeg_pos_of_edge hedge (by simp)
    rw [remIndeg_nil] at this
    omega
  · intro u v _ hv
    cases hv

/-- Given enough fuel, the loop drains its stack and ends in a state
satisfying the invariant with an empty stack. -/
theorem kahnLoop_spec {g : DiGraph α} (hwf : GraphWF g) :
    ∀ (fuel : Nat) (stack : List α) (m : α → Nat) (acc : List α),
      KInv g stack m acc → g.nodes.length ≤ fuel + acc.length →
      ∃ m', KInv g [] m' (kahnLoop g fuel stack m acc) := by
  intro fuel
  induction fuel with
  | zero =>
    intro stack m acc hinv hfuel
    have hsp : (acc ++ stack).Subperm g.nodes :=
      hinv.nodup.subperm hinv.sub
    have hlen : acc.length + stack.length ≤ g.nodes.length := by
      have := hsp.length_le
      simpa [List.length_append] using this
    have hstack0 : stack = [] := by
      have : stack.length = 0 := by omega
      exact List.length_eq_zero.mp this
    subst hstack0
    exact ⟨m, hinv⟩
  | succ fuel ih =>
    intro stack m acc hinv hfuel
    match stack with
    | [] => exact ⟨m, hinv⟩
    | n :: stack' =>
      have hstep := KInv_step hwf hinv
      have hlen : g.nodes.length ≤ fuel + (acc ++ [n]).length := by
        simp only [List.length_append, List.length_singleton]
        omega
      exact ih _ _ _ hstep hlen

/-- The final state of a full run satisfies the invariant with an empty
stack. -/
theorem kahnRun_spec {g : DiGraph α} (hwf : GraphWF g) :
    ∃ m', KInv g [] m' (kahnRun g) :=
  kahnLoop_spec hwf g.nodes.length _ g.indeg [] (KInv_init hwf) (by simp)

/-- What a successful `topological_sort` guarantees: the yielded list is a
duplicate-free enumeration of all nodes in which every edge `u → v` appears
as the ordered sublist `[u, v]`. -/
theorem topological_sort_ok_spec {g : DiGraph α} (hwf : GraphWF g)
    {order : List α} (h : topological_sort g = Except.ok order) :
    order.Nodup ∧ (∀ v, v ∈ order ↔ v ∈ g.nodes) ∧
      ∀ u v, (u, v) ∈ g.edges → [u, v].Sublist order := by
  obtain ⟨m', hfin⟩ := kahnRun_spec hwf
  unfold topological_sort at h
  split at h
  case isFalse => cases h
  case isTrue hlen =>
    obtain rfl : kahnRun g = order := by
      cases h
      rfl
    have hnd : (kahnRun g).Nodup := by simpa using hfin.nodup
    have hsubn : kahnRun g ⊆ g.nodes := by
      intro x hx
      exact hfin.sub x (by simpa using hx)
    have hperm : (kahnRun g).Perm g.nodes :=
      (hnd.subperm hsubn).perm_of_length_le (le_of_eq hlen.symm)
    refine ⟨hnd, fun v => ⟨fun hv => hsubn hv, fun hv => hperm.mem_iff.mpr hv⟩, ?_⟩
    intro u v hedge
    have hv : v ∈ kahnRun g := hperm.mem_iff.mpr (hwf.sndMem _ hedge)
    exact hfin.hacc u v hedge hv

/-- A failing `topological_sort` carries the fixed library message. -/
theorem topological_sort_error_msg {g : DiGraph α} {e : String}
    (h : topological_sort g = Except.error e) : e = nxUnfeasibleMsg := by
  unfold topological_sort at h
  split at h
  · cases h
  · cases h
    rfl

/-! ## Cycle extraction and order-index lemmas -/

/-- A non-empty finite set in which every element has a predecessor inside
the set contains a directed cycle. -/
theorem cycle_of_all_pred {r : α → α → Prop} (S : List α) (hne : S ≠ [])
    (H : ∀ v ∈ S, ∃ u, u ∈ S ∧ r u v) : ∃ w, Relation.TransGen r w w := by
  classical
  have H' : ∀ v, ∃ u, v ∈ S → u ∈ S ∧ r u v := by
    intro v
    by_cases hv : v ∈ S
    · obtain ⟨u, hu⟩ := H v hv
      exact ⟨u, fun _ => hu⟩
    · exact ⟨v, fun h => absurd h hv⟩
  choose f hf using H'
  obtain ⟨v₀, hv₀⟩ := List.exists_mem_of_ne_nil S hne
  have hiterS : ∀ (x : α), x ∈ S → ∀ k, f^[k] x ∈ S := by
    intro x hx k
    induction k with
    | zero => simpa
    | succ k ih =>
      rw [Function.iterate_succ_apply']
      exact (hf _ ih).1
  have htrans : ∀ (k : Nat) (x : α), x ∈ S → 1 ≤ k →
      Relation.TransGen r (f^[k] x) x := by
    intro k
    induction k with
    | zero => intro x _ hk; omega
    | succ k ih =>
      intro x hx _
      rcases Nat.eq_zero_or_pos k with rfl | hk
      · exact Relation.TransGen.single (hf x hx).2
      · rw [Function.iterate_succ_apply']
        have hy : f^[k] x ∈ S := hiterS x hx k
        exact Relation.TransGen.head (hf _ hy).2 (ih x hx hk)
  have key : ∀ (a b : Nat), a < b → f^[a] v₀ = f^[b] v₀ →
      ∃ w, Relation.TransGen r w w := by
    intro a b hab he
    have hx : f^[a] v₀ ∈ S := hiterS v₀ hv₀ a
    have hfix : f^[b - a] (f^[a] v₀) = f^[a] v₀ := by
      rw [← Function.iterate_add_apply, Nat.sub_add_cancel (le_of_lt hab)]
      exact he.symm
    have ht := htrans (b - a) (f^[a] v₀) hx (by omega)
    rw [hfix] at ht
    exact ⟨f^[a] v₀, ht⟩
  have hmaps : ∀ i : Fin (S.length + 1),
      (fun i : Fin (S.length + 1) => f^[i.1] v₀) i ∈ S.toFinset := by
    intro i
    exact List.mem_toFinset.mpr (hiterS v₀ hv₀ i.1)
  have hcard : S.toFinset.card <
      (Finset.univ : Finset (Fin (S.length + 1))).card := by
    have h1 : S.toFinset.card ≤ S.length := S.toFinset_card_le
    rw [Finset.card_univ, Fintype.card_fin]
    omega
  obtain ⟨i, _, j, _, hij, heq⟩ :=
    Finset.exists_ne_map_eq_of_card_lt_of_maps_to hcard (fun i _ => hmaps i)
  rcases Nat.lt_trichotomy i.1 j.1 with hlt | he | hgt
  · exact key i.1 j.1 hlt heq
  · exact absurd (Fin.ext he) hij
  · exact key j.1 i.1 hgt heq.symm

/-- In a duplicate-free list, the ordered sublist `[a, b]` means `a`'s index
is strictly smaller than `b`'s. -/
theorem indexOf_lt_of_sublist : ∀ (l : List α), l.Nodup →
    ∀ {a b : α}, [a, b].Sublist l → l.indexOf a < l.indexOf b := by
  intro l
  induction l with
  | nil =>
    intro _ a b h
    exact absurd (List.sublist_nil.mp h) (by simp)
  | cons x t ih =>
    intro hnd a b h
    obtain ⟨hx, hndt⟩ := List.nodup_cons.mp hnd
    cases h with
    | cons _ h' =>
      have ha : a ∈ t := h'.subset (by simp)
      have hb : b ∈ t := h'.subset (by simp)
      have hxa : x ≠ a := fun he => hx (he ▸ ha)
      have hxb : x ≠ b := fun he => hx (he ▸ hb)
      rw [List.indexOf_cons_ne _ hxa, List.indexOf_cons_ne _ hxb]
      exact Nat.succ_lt_succ (ih hndt h')
    | cons₂ _ h' =>
      have hb : b ∈ t := h'.subset (by simp)
      have hab : x ≠ b := fun he => hx (he ▸ hb)
      rw [List.indexOf_cons_self, List.indexOf_cons_ne _ hab]
      exact Nat.succ_pos _

/-- A successful `topological_sort` witnesses acyclicity. -/
theorem not_hasCycle_of_ok {g : DiGraph α} (hwf : GraphWF g)
    {order : List α} (h : topological_sort g = Except.ok order) :
    ¬ g.HasCycle := by
  obtain ⟨hnd, _, hsl⟩ := topological_sort_ok_spec hwf h
  rintro ⟨w, hw⟩
  have hidx : ∀ a b, Relation.TransGen g.Rel a b →
      order.indexOf a < order.indexOf b := by
    intro a b hab
    induction hab with
    | single h' => exact indexOf_lt_of_sublist order hnd (hsl _ _ h')
    | tail _ h' ih =>
      exact lt_trans ih (indexOf_lt_of_sublist order hnd (hsl _ _ h'))
  exact lt_irrefl _ (hidx w w hw)

/-- A failing `topological_sort` witnesses a directed cycle. -/
theorem hasCycle_of_error {g : DiGraph α} (hwf : GraphWF g) {e : String}
    (h : topological_sort g = Except.error e) : g.HasCycle := by
  obtain ⟨m', hfin⟩ := kahnRun_spec hwf
  have hlen : ¬ (kahnRun g).length = g.nodes.length := by
    intro hl
    unfold topological_sort at h
    rw [if_pos hl] at h
    cases h
  have hnd : (kahnRun g).Nodup := by simpa using hfin.nodup
  have hsubn : kahnRun g ⊆ g.nodes := fun x hx => hfin.sub x (by simpa using hx)
  have hex : ∃ v, v ∈ g.nodes ∧ v ∉ kahnRun g := by
    by_contra hall
    push_neg at hall
    have hns : g.nodes ⊆ kahnRun g := fun v hv => hall v hv
    have h1 := (hnd.subperm hsubn).length_le
    have h2 := (hwf.nodupNodes.subperm hns).length_le
    omega
  obtain ⟨v₀, hv₀n, hv₀⟩ := hex
  have hSne : g.nodes.filter (fun v => decide (v ∉ kahnRun g)) ≠ [] := by
    intro h0
    have hv : v₀ ∈ g.nodes.filter (fun v => decide (v ∉ kahnRun g)) :=
      List.mem_filter.mpr ⟨hv₀n, by simpa using hv₀⟩
    rw [h0] at hv
    cases hv
  have hpred : ∀ v ∈ g.nodes.filter (fun v => decide (v ∉ kahnRun g)),
      ∃ u, u ∈ g.nodes.filter (fun v => decide (v ∉ kahnRun g)) ∧ g.Rel u v := by
    intro v hv
    obtain ⟨hvn, hvr⟩ := List.mem_filter.mp hv
    have hvr' : v ∉ kahnRun g := by simpa using hvr
    obtain ⟨he1, he2⟩ := hfin.hm v hvn hvr' (by simp)
    have hpos : 0 < remIndeg g (kahnRun g) v := by omega
    obtain ⟨u, hue, hur⟩ := exists_edge_of_remIndeg_pos hpos
    exact ⟨u, List.mem_filter.mpr ⟨hwf.fstMem _ hue, by simpa using hur⟩, hue⟩
  exact cycle_of_all_pred _ hSne hpred

/-- On an acyclic well-formed graph, `topological_sort` succeeds. -/
theorem ok_of_not_hasCycle {g : DiGraph α} (hwf : GraphWF g)
    (h : ¬ g.HasCycle) : ∃ order, topological_sort g = Except.ok order := by
  cases htop : topological_sort g with
  | ok order => exact ⟨order, rfl⟩
  | error e => exact absurd (hasCycle_of_error hwf htop) h

/-! ## Graphs of edge-free registries -/

theorem succs_eq_nil_of_edges_nil {g : DiGraph α} (h : g.edges = []) (u : α) :
    g.succs u = [] := by
  unfold DiGraph.succs
  rw [h]
  rfl

theorem kahnVisit_edges_nil {g : DiGraph α} (h : g.edges = [])
    (m : α → Nat) (n : α) : kahnVisit g m n = ([], m) := by
  unfold kahnVisit
  rw [succs_eq_nil_of_edges_nil h]
  rfl

theorem kahnLoop_edges_nil {g : DiGraph α} (h : g.edges = []) :
    ∀ (fuel : Nat) (stack : List α) (m : α → Nat) (acc : List α),
      stack.length ≤ fuel → kahnLoop g fuel stack m acc = acc ++ stack := by
  intro fuel
  induction fuel with
  | zero =>
    intro stack m acc hle
    have h0 : stack = [] := List.length_eq_zero.mp (by omega)
    subst h0
    simp [kahnLoop]
  | succ fuel ih =>
    intro stack m acc hle
    match stack with
    | [] => simp [kahnLoop]
    | n :: stack' =>
      show kahnLoop g fuel ((kahnVisit g m n).1.reverse ++ stack')
        (kahnVisit g m n).2 (acc ++ [n]) = acc ++ n :: stack'
      rw [kahnVisit_edges_nil h]
      show kahnLoop g fuel stack' m (acc ++ [n]) = acc ++ n :: stack'
      have hle' : stack'.length ≤ fuel := by
        simp only [List.length_cons] at hle
        omega
      rw [ih stack' m (acc ++ [n]) hle']
      simp

theorem kahnRun_edges_nil {g : DiGraph α} (h : g.edges = []) :
    kahnRun g = g.nodes.reverse := by
  unfold kahnRun
  have hind : ∀ v, g.indeg v = 0 := by
    intro v
    unfold DiGraph.indeg
    rw [h]
    rfl
  have hz : g.nodes.filter (fun v => decide (g.indeg v = 0)) = g.nodes :=
    List.filter_eq_self.mpr (fun a _ => by simp [hind])
  rw [hz, kahnLoop_edges_nil h _ _ _ _ (by simp)]
  simp

theorem topological_sort_edges_nil {g : DiGraph α} (h : g.edges = []) :
    topological_sort g = Except.ok g.nodes.reverse := by
  unfold topological_sort
  rw [kahnRun_edges_nil h]
  simp

theorem foldl_dict_no_deps :
    ∀ (d : List (α × List α)) (g : DiGraph α), (∀ kv ∈ d, kv.2 = []) →
      d.foldl (fun g kv => kv.2.foldl (fun g2 v => g2.addEdge kv.1 v) g) g
        = g := by
  intro d
  induction d with
  | nil => intro g _; rfl
  | cons kv d ih =>
    intro g h
    rw [List.foldl_cons, h kv (List.mem_cons_self _ _)]
    simp only [List.foldl_nil]
    exact ih g (fun q hq => h q (List.mem_cons_of_mem _ hq))

theorem foldl_addNode_nodes_eq :
    ∀ (d : List (α × List α)) (g : DiGraph α),
      (g.nodes ++ d.map (fun kv => kv.1)).Nodup →
      (d.foldl (fun g kv => g.addNode kv.1) g).nodes =
        g.nodes ++ d.map (fun kv => kv.1) := by
  intro d
  induction d with
  | nil => intro g _; simp
  | cons kv d ih =>
    intro g h
    simp only [List.map_cons] at h ⊢
    have hnotin : kv.1 ∉ g.nodes := by
      intro hk
      obtain ⟨_, _, hdisj⟩ := List.nodup_append.mp h
      exact hdisj hk (List.mem_cons_self _ _)
    have haddeq : (g.addNode kv.1).nodes = g.nodes ++ [kv.1] := by
      unfold DiGraph.addNode
      rw [if_neg hnotin]
    rw [List.foldl_cons]
    have hnd' : ((g.addNode kv.1).nodes ++ d.map (fun kv => kv.1)).Nodup := by
      rw [haddeq, List.append_assoc]
      simpa using h
    rw [ih _ hnd', haddeq, List.append_assoc]
    simp

/-! ## The registry pipeline -/

/-- The dependency graph of any registry is well-formed. -/
theorem registry_graph_wf (R : Registry α) :
    GraphWF (get_state_dependency_graph R) :=
  DiGraph.ofDict_wf _

/-- Edge membership in the registry's dependency graph. -/
theorem mem_registry_graph_edges {R : Registry α} {u v : α} :
    (u, v) ∈ (get_state_dependency_graph R).edges ↔
      ∃ e ∈ R, e.state = u ∧ v ∈ e.required ++ e.optionalDeps := by
  unfold get_state_dependency_graph dependency_dict
  rw [DiGraph.mem_ofDict_edges]
  constructor
  · rintro ⟨kv, hkv, h1, h2⟩
    obtain ⟨e, he, rfl⟩ := List.mem_map.mp hkv
    exact ⟨e, he, h1.symm, h2⟩
  · rintro ⟨e, he, rfl, h2⟩
    exact ⟨(e.state, e.required ++ e.optionalDeps),
      List.mem_map_of_mem _ he, rfl, h2⟩

omit [DecidableEq α] in
theorem dependency_dict_nil_deps {R : Registry α}
    (h2 : ∀ e ∈ R, e.required = [] ∧ e.optionalDeps = []) :
    ∀ kv ∈ dependency_dict R, kv.2 = [] := by
  intro kv hkv
  obtain ⟨e, he, rfl⟩ := List.mem_map.mp hkv
  obtain ⟨ha, hb⟩ := h2 e he
  simp [ha, hb]

theorem registry_graph_edges_nil {R : Registry α}
    (h2 : ∀ e ∈ R, e.required = [] ∧ e.optionalDeps = []) :
    (get_state_dependency_graph R).edges = [] := by
  unfold get_state_dependency_graph DiGraph.ofDict
  rw [foldl_dict_no_deps _ _ (dependency_dict_nil_deps h2),
    DiGraph.foldl_addNode_edges]
  rfl

theorem registry_graph_nodes_no_deps {R : Registry α}
    (h1 : (R.map (fun e => e.state)).Nodup)
    (h2 : ∀ e ∈ R, e.required = [] ∧ e.optionalDeps = []) :
    (get_state_dependency_graph R).nodes = R.map (fun e => e.state) := by
  unfold get_state_dependency_graph DiGraph.ofDict
  rw [foldl_dict_no_deps _ _ (dependency_dict_nil_deps h2)]
  rw [foldl_addNode_nodes_eq _ _
    (by simpa [DiGraph.empty, dependency_dict, List.map_map] using h1)]
  simp [DiGraph.empty, dependency_dict, List.map_map]

/-! ## Claims about the dependency-order pipeline -/

/-- C1: for every registry whose dependency graph is acyclic and every
state `k` with a required dependency `d`, `get_states_by_dependency_order`
returns an order in which the position of `d` strictly precedes the
position of `k`. -/
theorem C1_dependency_respect (R : Registry α)
    (hacyc : ¬ (get_state_dependency_graph R).HasCycle)
    (e : RegEntry α) (he : e ∈ R) (d : α) (hd : d ∈ e.required) :
    ∃ order, get_states_by_dependency_order R = Except.ok order ∧
      d ∈ order ∧ e.state ∈ order ∧
      order.indexOf d < order.indexOf e.state := by
  have hwf := registry_graph_wf R
  obtain ⟨torder, htop⟩ := ok_of_not_hasCycle hwf hacyc
  obtain ⟨hnd, hmem, hsl⟩ := topological_sort_ok_spec hwf htop
  have hedge : (e.state, d) ∈ (get_state_dependency_graph R).edges :=
    mem_registry_graph_edges.mpr
      ⟨e, he, rfl, List.mem_append.mpr (Or.inl hd)⟩
  have hrev : [d, e.state].Sublist torder.reverse := by
    have := (hsl _ _ hedge).reverse
    simpa using this
  refine ⟨torder.reverse, ?_, ?_, ?_, ?_⟩
  · unfold get_states_by_dependency_order
    rw [htop]
    rfl
  · rw [List.mem_reverse]
    exact (hmem d).mpr (hwf.sndMem _ hedge)
  · rw [List.mem_reverse]
    exact (hmem e.state).mpr (hwf.fstMem _ hedge)
  · exact indexOf_lt_of_sublist _ (List.nodup_reverse.mpr hnd) hrev

/-- C2 (amended): the global order is deterministic, but ties between
independent StateKinds follow the catalog's iteration order, not lexical
order: on a registry with no dependencies at all the returned global order
is exactly the registration (iteration) sequence of the keys. -/
theorem C2_amended_iteration_order (R : Registry α)
    (h1 : (R.map (fun e => e.state)).Nodup)
    (h2 : ∀ e ∈ R, e.required = [] ∧ e.optionalDeps = []) :
    get_states_by_dependency_order R =
      Except.ok (R.map (fun e => e.state)) := by
  unfold get_states_by_dependency_order
  rw [topological_sort_edges_nil (registry_graph_edges_nil h2),
    registry_graph_nodes_no_deps h1 h2]
  show Except.ok (R.map (fun e => e.state)).reverse.reverse =
    Except.ok (R.map (fun e => e.state))
  rw [List.reverse_reverse]

/-- C3 (amended): for every state `k` and every required or optional
dependency `d` of `k`, the dependency graph contains the directed edge
`k → d` — from dependent to prerequisite, the reversal in
`get_states_by_dependency_order` being what restores prerequisite-first
order. -/
theorem C3_amended_edge_direction (R : Registry α)
    (e : RegEntry α) (he : e ∈ R) (d : α)
    (hd : d ∈ e.required ++ e.optionalDeps) :
    (e.state, d) ∈ (get_state_dependency_graph R).edges :=
  mem_registry_graph_edges.mpr ⟨e, he, rfl, hd⟩

/-- C4 (amended): whenever the dependency graph contains a directed cycle,
`get_states_by_dependency_order` fails with the fixed `NetworkXUnfeasible`
message — which names no states — and returns no order. -/
theorem C4_amended_cycle_error (R : Registry α)
    (hcyc : (get_state_dependency_graph R).HasCycle) :
    get_states_by_dependency_order R = Except.error nxUnfeasibleMsg := by
  have hwf := registry_graph_wf R
  cases htop : topological_sort (get_state_dependency_graph R) with
  | ok order => exact absurd hcyc (not_hasCycle_of_ok hwf htop)
  | error e =>
    have hmsg := topological_sort_error_msg htop
    unfold get_states_by_dependency_order
    rw [htop, hmsg]
    rfl

end KahnLemmas

/-- C1 (witness): the chain registry is acyclic and its global order puts
Temperature strictly before Cooked. -/
theorem C1_dependency_respect_witness :
    ∃ order, get_states_by_dependency_order regChain = Except.ok order ∧
      "Temperature" ∈ order ∧ "Cooked" ∈ order ∧
      order.indexOf "Temperature" < order.indexOf "Cooked" :=
  C1_dependency_respect regChain
    (not_hasCycle_of_ok (registry_graph_wf regChain)
      (show topological_sort (get_state_dependency_graph regChain) =
        Except.ok ["Cooked", "Temperature", "Pose"] from by rfl))
    ⟨"Cooked", ["Temperature"], []⟩ (List.mem_cons_self _ _)
    "Temperature" (List.mem_cons_self _ _)

/-- C2 (counterexample): on the registry iterating B before A — two
independent StateKinds — the global order is `["B", "A"]` and not the
lexically ascending `["A", "B"]` the claim demands: ties are not broken by
ascending lexical order of the name. -/
theorem C2_counterexample :
    get_states_by_dependency_order regBA = Except.ok ["B", "A"] ∧
      (["B", "A"] : List String) ≠ ["A", "B"] :=
  ⟨by rfl, by decide⟩

/-- C2 (witness): the amended statement at the concrete registry iterating
B before A. -/
theorem C2_amended_iteration_order_witness :
    get_states_by_dependency_order regBA = Except.ok ["B", "A"] :=
  C2_amended_iteration_order regBA (by decide) (by decide)

/-- C3 (counterexample): for the registry in which K requires D, the
dependency graph contains the edge `K → D` and not the edge `D → K` the
claim asserts. -/
theorem C3_counterexample :
    ("D", "K") ∉ (get_state_dependency_graph regKD).edges ∧
      ("K", "D") ∈ (get_state_dependency_graph regKD).edges := by
  decide

/-- C3 (witness): the amended edge direction at the concrete one-entry
registry. -/
theorem C3_amended_edge_direction_witness :
    ("K", "D") ∈ (get_state_dependency_graph regKD).edges :=
  C3_amended_edge_direction regKD ⟨"K", ["D"], []⟩ (List.mem_cons_self _ _)
    "D" (by decide)

/-- C4 (counterexample): the A-B cycle and the C-D cycle fail with the very
same fixed error value, so the reported error names no cycle members. -/
theorem C4_counterexample :
    get_states_by_dependency_order regABcycle =
      Except.error nxUnfeasibleMsg ∧
    get_states_by_dependency_order regCDcycle =
      Except.error nxUnfeasibleMsg :=
  ⟨by rfl, by rfl⟩

/-- C4 (witness): the amended statement at the concrete A-B cycle. -/
theorem C4_amended_cycle_error_witness :
    get_states_by_dependency_order regABcycle =
      Except.error nxUnfeasibleMsg := by
  apply C4_amended_cycle_error
  have h1 : (get_state_dependency_graph regABcycle).Rel "A" "B" := by
    show ("A", "B") ∈ (get_state_dependency_graph regABcycle).edges
    decide
  have h2 : (get_state_dependency_graph regABcycle).Rel "B" "A" := by
    show ("B", "A") ∈ (get_state_dependency_graph regABcycle).edges
    decide
  exact ⟨"A", Relation.TransGen.head h1 (Relation.TransGen.single h2)⟩

end OmniGibson
